import Mathlib

/-!
Verification development for the CompGraph row-stream engine
(`src/lib/operations.py`, `src/lib/groups.py`).

Rows are modelled as association lists from column names to values, in
insertion order, mirroring Python dictionaries (which preserve insertion
order and hold at most one entry per key).  Values are modelled by the
two kinds that the verified claims exercise, integers and strings;
Python's heterogeneous comparison failures are totalized (see `Value.ltb`).
Stateful generators are modelled functionally: a mapper takes a row and
returns the post-state of that row together with the list of rows it
yields; fallible Python code (KeyError, TypeError, ValueError) is
modelled with `Option`, `none` standing for an aborted run.
-/

namespace CompGraph

/-- Values stored in a row: the integer and string cases that the claims
exercise.  Python values are heterogeneous; arithmetic on unmodelled
kinds (floats, pairs) is abstracted by function parameters where it
occurs. -/
inductive Value where
  | int : Int → Value
  | str : String → Value
deriving DecidableEq

/-- A row: a finite mapping from column names to values, kept in
insertion order exactly as a Python dict. -/
abbrev Row := List (String × Value)

/-- The empty row `dict()`, used by the join state machine as the
absent-side sentinel. -/
def emptyRow : Row := []

/-- Dictionary lookup `row[k]` / `row.get(k)`: the value at the first
(and, for well-formed rows, only) occurrence of the key. -/
def rowFind? (r : Row) (k : String) : Option Value :=
  match r with
  | [] => none
  | (k1, v) :: rest => if k1 = k then some v else rowFind? rest k

/-- Membership test `k in row`. -/
def rowContains (r : Row) (k : String) : Bool :=
  (rowFind? r k).isSome

/-- Dictionary assignment `row[k] = v`: update in place when the key is
present (keeping its position, as Python dicts do), append otherwise. -/
def rowInsert (r : Row) (k : String) (v : Value) : Row :=
  match r with
  | [] => [(k, v)]
  | (k1, v1) :: rest => if k1 = k then (k1, v) :: rest else (k1, v1) :: rowInsert rest k v

/-- A well-formed row has no duplicated column names; every row built by
the Python engine satisfies this because Python dicts cannot repeat a
key. -/
def WFRow (r : Row) : Prop := (r.map Prod.fst).Nodup

/-- Comparison of two values, as Python `<`.  Integers and strings
compare within their own kind (strings lexicographically by code
point).  Python raises `TypeError` on a cross-kind comparison; the model
totalizes it (int before str) — all theorems that depend on an order
only use it on rows whose compared columns exist, as in the engine's
sorted-stream contract. -/
def charLtb (a b : Char) : Bool := decide (a.toNat < b.toNat)

/-- Lexicographic strict comparison of char lists (Python string `<`). -/
def charsLtb : List Char → List Char → Bool
  | [], [] => false
  | [], _ :: _ => true
  | _ :: _, [] => false
  | a :: as, b :: bs => charLtb a b || (a = b && charsLtb as bs)

/-- Strict comparison on values (see `charLtb` for the string case). -/
def Value.ltb : Value → Value → Bool
  | .int a, .int b => decide (a < b)
  | .str a, .str b => charsLtb a.data b.data
  | .int _, .str _ => true
  | .str _, .int _ => false

/-- Strict comparison on optional values.  `none` encodes a key missing
from a row; the Python engine would raise `KeyError` before ever
comparing, so the `none` cases are never exercised by theorems with
key-presence hypotheses. -/
def ovLtb : Option Value → Option Value → Bool
  | none, none => false
  | none, some _ => true
  | some _, none => false
  | some a, some b => Value.ltb a b

/-- The key tuple of a row: `tuple(row[key] for key in keys)`, with a
missing key modelled as `none` (Python raises `KeyError`). -/
def keyTuple (keys : List String) (r : Row) : List (Option Value) :=
  keys.map (fun k => rowFind? r k)

/-- Every row of the list carries every grouping key. -/
def AllKeysPresent (keys : List String) (rows : List Row) : Prop :=
  ∀ r ∈ rows, ∀ k ∈ keys, (rowFind? r k).isSome

/- ### Text helpers for the stock mappers -/

/-- The 32 characters of Python `string.punctuation` (some written via
`Char.ofNat` to keep the source free of brace and backtick literals). -/
def punctuationChars : List Char :=
  ['!', '"', '#', '$', '%', '&', Char.ofNat 39, '(', ')', '*', '+', ',', '-', '.', '/',
   ':', ';', '<', '=', '>', '?', '@', '[', '\\', ']', Char.ofNat 94, '_', Char.ofNat 96,
   Char.ofNat 123, '|', Char.ofNat 125, Char.ofNat 126]

/-- `str.translate(str.maketrans("", "", string.punctuation))`: delete
every ASCII punctuation character. -/
def stripPunct (s : String) : String :=
  String.mk (s.data.filter (fun c => !(punctuationChars.contains c)))

/-- ASCII lowercasing, modelling `str.lower()` on the ASCII texts the
engine's pipelines process. -/
def pyLower (s : String) : String :=
  String.mk (s.data.map Char.toLower)

/-- Python `str.isspace`-style whitespace recognizer for the characters
`str.split(None)` splits on (ASCII subset). -/
def isPySpace (c : Char) : Bool :=
  c = ' ' || c = Char.ofNat 9 || c = Char.ofNat 10 || c = Char.ofNat 13 ||
  c = Char.ofNat 11 || c = Char.ofNat 12

/-- Accumulator pass of `str.split(None)`: `acc` holds the characters of
the token currently being read, in reverse. -/
def splitWsGo (acc : List Char) : List Char → List String
  | [] => if acc = [] then [] else [String.mk acc.reverse]
  | c :: cs =>
    if isPySpace c then
      if acc = [] then splitWsGo [] cs
      else String.mk acc.reverse :: splitWsGo [] cs
    else splitWsGo (c :: acc) cs

/-- Python `s.split(None)` (the `Split` mapper's default): split on runs
of whitespace, discarding empty tokens. -/
def pysplitNone (s : String) : List String := splitWsGo [] s.data

/-- Python `s.split(sep)` for a non-empty separator (keeps empty
tokens); Lean's `String.splitOn` has the same semantics. -/
def pysplitSep (sep : String) (s : String) : List String := s.splitOn sep

/- ### Stock mappers

Each mapper is modelled as `Row → Option (Row × List Row)`: the
post-state of the received row and the list of rows yielded, `none`
standing for a raised exception. -/

/-- Shared access pattern `row.get(column, "")` of `FilterPunctuation`,
`LowerCase` and `Split`: a missing column defaults to the empty string;
a present non-string value makes the subsequent string method raise
(`none`). -/
def getStrD (r : Row) (c : String) : Option String :=
  match rowFind? r c with
  | none => some ""
  | some (Value.str s) => some s
  | some (Value.int _) => none

/-- The `FilterPunctuation` mapper: writes the stripped string back into
the same row and yields that row. -/
def filterPunctuationM (column : String) (r : Row) : Option (Row × List Row) :=
  (getStrD r column).map (fun s =>
    let r1 := rowInsert r column (Value.str (stripPunct s))
    (r1, [r1]))

/-- The `LowerCase` mapper: writes the lowercased string back into the
same row and yields that row. -/
def lowerCaseM (column : String) (r : Row) : Option (Row × List Row) :=
  (getStrD r column).map (fun s =>
    let r1 := rowInsert r column (Value.str (pyLower s))
    (r1, [r1]))

/-- The `Split` mapper: `row.get(column, "")`, split by the separator
(`none` = whitespace runs; Python raises `ValueError` on an empty
separator), and yield one fresh copy of the row per token with the
column replaced.  The received row is left unchanged. -/
def splitM (column : String) (separator : Option String) (r : Row) : Option (Row × List Row) :=
  (getStrD r column).bind (fun s =>
    match separator with
    | none => some (r, (pysplitNone s).map (fun t => rowInsert r column (Value.str t)))
    | some sep =>
      if sep = "" then none
      else some (r, (pysplitSep sep s).map (fun t => rowInsert r column (Value.str t))))

/-- Integer multiplication, the only product the verified pipelines
take; other Python value combinations are modelled as failures. -/
def vmul : Value → Value → Option Value
  | .int a, .int b => some (.int (a * b))
  | _, _ => none

/-- The `Product` mapper: sets `row[result_column] = 1`, then multiplies
the listed columns into it one by one (reading the evolving row, as the
source does), finally yielding the mutated row. -/
def productM (columns : List String) (result_column : String) (r : Row) : Option (Row × List Row) :=
  let r0 := rowInsert r result_column (Value.int 1)
  (columns.foldlM (fun (cur : Row) c =>
      (rowFind? cur c).bind (fun v =>
        (vmul ((rowFind? cur result_column).getD (Value.int 0)) v).map
          (fun p => rowInsert cur result_column p))) r0).map
    (fun r1 => (r1, [r1]))

/-- The `Project` mapper: builds a fresh row out of exactly the listed
columns (raising on a missing one) and yields it; the received row is
untouched. -/
def projectM (columns : List String) (r : Row) : Option (Row × List Row) :=
  (columns.foldlM (fun (acc : Row) c =>
      (rowFind? r c).map (fun v => rowInsert acc c v)) emptyRow).map
    (fun res => (r, [res]))

/-- The `InverseFrequency` mapper.  The float computation
`log(row[a] / row[b])` is abstracted by the parameter `vlogdiv`; the
mapper's control flow (raise on a missing column, else write the result
into the row in place and yield it) is modelled exactly. -/
def inverseFrequencyM (vlogdiv : Value → Value → Value)
    (elements_amount_column encountered_elements_amount_column res_row : String)
    (r : Row) : Option (Row × List Row) :=
  (rowFind? r elements_amount_column).bind (fun a =>
    (rowFind? r encountered_elements_amount_column).map (fun b =>
      let r1 := rowInsert r res_row (vlogdiv a b)
      (r1, [r1])))

/- ### Grouping iterator (`src/lib/groups.py`, `GroupsCreator`)

The stateful iterator is modelled functionally as the list of groups the
repeated `group_iterator` / `update_generator` protocol produces: a seed
row is held, rows are appended to the current group while their key
tuple equals the seed's, and the first row with a different tuple seeds
the next group. -/

/-- One `group_iterator` pass and all that follow it: `seed` is
`first_group_element`, `acc` the rows of the current group already
yielded after the seed (in reverse), and the third argument the rows
still in the upstream generator. -/
def groupsGo (keys : List String) (seed : Row) (acc : List Row) : List Row → List (List Row)
  | [] => [seed :: acc.reverse]
  | r :: rs =>
    if keyTuple keys r = keyTuple keys seed then groupsGo keys seed (r :: acc) rs
    else (seed :: acc.reverse) :: groupsGo keys r [] rs

/-- The sequence of groups `GroupsCreator(rows, keys)` produces. -/
def groupsOf (keys : List String) : List Row → List (List Row)
  | [] => []
  | r :: rs => groupsGo keys r [] rs

/-- The `group_key_values` of a group: the key tuple of its seed row. -/
def groupKeyOf (keys : List String) (g : List Row) : List (Option Value) :=
  keyTuple keys (g.headD emptyRow)

/-- Strict lexicographic comparison of key tuples, used to state the
ascending-sort precondition of the grouping and join claims. -/
def lexLtb : List (Option Value) → List (Option Value) → Bool
  | [], [] => false
  | [], _ :: _ => true
  | _ :: _, [] => false
  | a :: as, b :: bs => ovLtb a b || (a == b && lexLtb as bs)

/-- Non-strict key-tuple order (ascending), the engine's sorted-stream
precondition. -/
def keyLe (a b : List (Option Value)) : Prop := a = b ∨ lexLtb a b = true

/-- The distinct key tuples of a list in order of first appearance,
used to state "groups are produced in the order their keys first
appear". -/
def firstDedup : List (List (Option Value)) → List (List (Option Value))
  | [] => []
  | a :: l => a :: firstDedup (l.filter (fun x => x ≠ a))
termination_by l => l.length
decreasing_by exact Nat.lt_succ_of_le (List.length_filter_le _ _)

/- ### Join operator (`src/lib/operations.py`, `Join` and
`compare_key_values`) -/

/-- The source's `compare_key_values`: walk `zip(first, second)`; on the
first strictly smaller left element return `(0, 1)`, on the first
strictly greater return `(1, 0)`, and return `(1, 1)` when the zip ends
with no strict difference. -/
def compare_key_values : List (Option Value) → List (Option Value) → Nat × Nat
  | a :: as, b :: bs =>
    if ovLtb a b then (0, 1)
    else if ovLtb b a then (1, 0)
    else compare_key_values as bs
  | _, _ => (1, 1)

/-- Drain phase on the left cursor: each remaining left group is handed
to the joiner against the `[empty_row]` sentinel. -/
def drainLeft (J : List Row → List Row → List Row) (lgs : List (List Row)) : List Row :=
  (lgs.map (fun g => J g [emptyRow])).flatten

/-- Drain phase on the right cursor. -/
def drainRight (J : List Row → List Row → List Row) (rgs : List (List Row)) : List Row :=
  (rgs.map (fun g => J [emptyRow] g)).flatten

/-- The merge-join loop of `Join.__call__`, over the group sequences of
the two cursors.  The main `while` tests the Python *truthiness* of both
`first_group_element`s, so it also stops when a seed row is the empty
dict; the two trailing `while ... is not None` drains then process
whatever is left on each side. -/
def mergeJoin (keys : List String) (J : List Row → List Row → List Row) :
    List (List Row) → List (List Row) → List Row
  | [], rgs => drainRight J rgs
  | lg :: lgs, [] => drainLeft J (lg :: lgs)
  | lg :: lgs, rg :: rgs =>
    if lg.headD emptyRow = emptyRow ∨ rg.headD emptyRow = emptyRow then
      drainLeft J (lg :: lgs) ++ drainRight J (rg :: rgs)
    else
      let c := compare_key_values (groupKeyOf keys lg) (groupKeyOf keys rg)
      if c.1 = c.2 then J lg rg ++ mergeJoin keys J lgs rgs
      else if c.2 < c.1 then J [emptyRow] rg ++ mergeJoin keys J (lg :: lgs) rgs
      else J lg [emptyRow] ++ mergeJoin keys J lgs (rg :: rgs)
termination_by lgs rgs => lgs.length + rgs.length
decreasing_by all_goals (simp only [List.length_cons]; omega)

/-- The whole `Join` operation on two materialized streams, for a joiner
`J` already applied to its keys and suffixes. -/
def joinRun (keys : List String) (J : List Row → List Row → List Row)
    (left right : List Row) : List Row :=
  mergeJoin keys J (groupsOf keys left) (groupsOf keys right)

/- ### Spec-side merge-join state machine (section 4.5 of the spec) -/

/-- Ordering-valued comparison used to express the spec's words
"compares the key tuples lexicographically". -/
def ovCmp (a b : Option Value) : Ordering :=
  if ovLtb a b then .lt else if ovLtb b a then .gt else .eq

/-- Lexicographic comparison of key tuples, following the spec. -/
def lexOrd : List (Option Value) → List (Option Value) → Ordering
  | [], [] => .eq
  | [], _ :: _ => .lt
  | _ :: _, [] => .gt
  | a :: as, b :: bs =>
    match ovCmp a b with
    | .eq => lexOrd as bs
    | o => o

/-- The merge-join state machine exactly as the spec states it: while
both sides have a current group, compare the key tuples
lexicographically — equal: invoke the joiner on both groups and advance
both; smaller left key: invoke it on `(left group, [empty_row])` and
advance the left; larger: `([empty_row], right group)` and advance the
right; after one side is exhausted, drain the other against
`[empty_row]`. -/
def mergeJoinSpec (keys : List String) (J : List Row → List Row → List Row) :
    List (List Row) → List (List Row) → List Row
  | [], rgs => drainRight J rgs
  | lg :: lgs, [] => drainLeft J (lg :: lgs)
  | lg :: lgs, rg :: rgs =>
    match lexOrd (groupKeyOf keys lg) (groupKeyOf keys rg) with
    | .eq => J lg rg ++ mergeJoinSpec keys J lgs rgs
    | .lt => J lg [emptyRow] ++ mergeJoinSpec keys J lgs (rg :: rgs)
    | .gt => J [emptyRow] rg ++ mergeJoinSpec keys J (lg :: lgs) rgs
termination_by lgs rgs => lgs.length + rgs.length
decreasing_by all_goals (simp only [List.length_cons]; omega)

/- ### Row merge and the four joiner strategies -/

/-- The source's `merge_two_dicts_by_keys`: swap the rows and suffixes
when the left one is empty (the sentinel is always passed on one side),
then run the two placement loops with Python dict-assignment
semantics. -/
def merge_two_dicts_by_keys (a_row b_row : Row) (suffix_a suffix_b : String)
    (keys : List String) : Row :=
  match (if a_row.length = 0 then (b_row, emptyRow, suffix_b, suffix_a)
         else (a_row, b_row, suffix_a, suffix_b)) with
  | (a, b, sa, sb) =>
    let m := a.foldl (fun m kv =>
      if rowContains b kv.1 ∧ kv.1 ∉ keys then
        rowInsert (rowInsert m (kv.1 ++ sa) kv.2) (kv.1 ++ sb)
          ((rowFind? b kv.1).getD (Value.str ""))
      else rowInsert m kv.1 kv.2) emptyRow
    b.foldl (fun m kv =>
      if ¬ rowContains m kv.1 ∧ ¬ rowContains m (kv.1 ++ sb) then
        rowInsert m kv.1 kv.2
      else m) m

/-- First placement pass as the spec words it: for every column `c` of
`a`, if `c` also appears in `b` and is not a key, place `c+sfx_a` from
`a` and `c+sfx_b` from `b`, otherwise place `c` from `a`. -/
def mergePassA (a b : Row) (sa sb : String) (keys : List String) : Row :=
  a.foldl (fun m kv =>
    if rowContains b kv.1 ∧ kv.1 ∉ keys then
      rowInsert (rowInsert m (kv.1 ++ sa) kv.2) (kv.1 ++ sb)
        ((rowFind? b kv.1).getD (Value.str ""))
    else rowInsert m kv.1 kv.2) emptyRow

/-- Second placement pass as the spec words it: every column of `b` not
already placed directly or under its suffixed form is added. -/
def mergePassB (b : Row) (sb : String) (m : Row) : Row :=
  b.foldl (fun m kv =>
    if ¬ rowContains m kv.1 ∧ ¬ rowContains m (kv.1 ++ sb) then
      rowInsert m kv.1 kv.2
    else m) m

/-- The row-merge helper as the spec describes it: the two passes, with
the roles of the rows and of the suffixes swapped when the left argument
is the empty sentinel row. -/
def mergeRowsSpec (a b : Row) (sa sb : String) (keys : List String) : Row :=
  if a = emptyRow then mergePassB emptyRow sa (mergePassA b emptyRow sb sa keys)
  else mergePassB b sb (mergePassA a b sa sb keys)

/-- Merged Cartesian product `rows_a × rows_b`, one merged row per
pair — the body of every joiner's double loop. -/
def cartMerge (sa sb : String) (keys : List String) (rows_a rows_b : List Row) : List Row :=
  rows_a.flatMap (fun ra => rows_b.map (fun rb => merge_two_dicts_by_keys ra rb sa sb keys))

/-- The `InnerJoiner`: suppresses output whenever either side is the
`[empty_row]` sentinel (the source compares the received iterable with
the literal `[dict()]`; the model compares values). -/
def innerJoinerF (sa sb : String) (keys : List String) (rows_a rows_b : List Row) : List Row :=
  if rows_a = [emptyRow] ∨ rows_b = [emptyRow] then []
  else cartMerge sa sb keys rows_a rows_b

/-- The `OuterJoiner`: never filters. -/
def outerJoinerF (sa sb : String) (keys : List String) (rows_a rows_b : List Row) : List Row :=
  cartMerge sa sb keys rows_a rows_b

/-- The `LeftJoiner`: suppresses output when the *left* side is the
sentinel. -/
def leftJoinerF (sa sb : String) (keys : List String) (rows_a rows_b : List Row) : List Row :=
  if rows_a = [emptyRow] then [] else cartMerge sa sb keys rows_a rows_b

/-- The `RightJoiner`: suppresses output when the *right* side is the
sentinel. -/
def rightJoinerF (sa sb : String) (keys : List String) (rows_a rows_b : List Row) : List Row :=
  if rows_b = [emptyRow] then [] else cartMerge sa sb keys rows_a rows_b

/- ### Stock reducers

A reducer is modelled as a function from the key list and the group's
rows to `Option (List Row)`: the rows it yields, or `none` for a raised
exception (`NameError` on an empty group, `KeyError` on a missing
column, `IndexError` on an empty key list in `Sum`). -/

/-- The row bound by the last iteration of `for row in rows`, whose
key columns the reducers echo; `none` when the group was empty and the
name `row` is unbound. -/
def lastRow? : List Row → Option Row
  | [] => none
  | [r] => some r
  | _ :: r2 :: rs => lastRow? (r2 :: rs)

/-- Integer addition for the `Sum` and `Mean` accumulators (which start
from the int `0`); other Python combinations are modelled as
failures. -/
def vadd : Value → Value → Option Value
  | .int a, .int b => some (.int (a + b))
  | _, _ => none

/-- Builds the `common_keys` / `ans` dict that `Count`, `Mean` and
`TermFrequency` fill with `row[key] for key in group_key` from the last
row of the group, raising on a missing key. -/
def echoKeys (keys : List String) (last : Row) : Option Row :=
  keys.foldlM (fun (a : Row) k => (rowFind? last k).map (fun v => rowInsert a k v)) emptyRow

/-- The `FirstReducer`: yield the first row of the group only. -/
def firstReducerR (_group_key : List String) (rows : List Row) : List Row :=
  match rows with
  | [] => []
  | r :: _ => [r]

/-- The `Count` reducer: group size under `column`, after echoing the
grouping keys from the last row. -/
def countR (column : String) (group_key : List String) (rows : List Row) : Option (List Row) :=
  (lastRow? rows).bind (fun last =>
    (echoKeys group_key last).map (fun ans =>
      [rowInsert ans column (Value.int rows.length)]))

/-- The `Sum` reducer: one row holding only the *first* key column
(`group_key[0]`, an `IndexError` when the key list is empty) and the
column's sum. -/
def sumR (column : String) (group_key : List String) (rows : List Row) : Option (List Row) :=
  (rows.foldlM (fun acc r => (rowFind? r column).bind (vadd acc)) (Value.int 0)).bind
    (fun s => (lastRow? rows).bind (fun last =>
      group_key.head?.bind (fun k0 =>
        (rowFind? last k0).map (fun v =>
          [rowInsert (rowInsert emptyRow k0 v) column s]))))

/-- The `Mean` reducer; the float division `sum / amount` is abstracted
by `vdiv`. -/
def meanR (vdiv : Value → Nat → Value) (column : String) (group_key : List String)
    (rows : List Row) : Option (List Row) :=
  (rows.foldlM (fun acc r => (rowFind? r column).bind (vadd acc)) (Value.int 0)).bind
    (fun s => (lastRow? rows).bind (fun last =>
      (echoKeys group_key last).map (fun ans =>
        [rowInsert ans column (vdiv s rows.length)])))

/-- Ordered word counter of `TermFrequency`: `setdefault` + `+= 1`
preserving first-encounter order. -/
def bumpCount (wc : List (Value × Nat)) (w : Value) : List (Value × Nat) :=
  if wc.any (fun p => p.1 = w) then
    wc.map (fun p => if p.1 = w then (p.1, p.2 + 1) else p)
  else wc ++ [(w, 1)]

/-- The `TermFrequency` reducer; `vdivNN count amount` abstracts the
float `count / words_amount`. -/
def termFrequencyR (vdivNN : Nat → Nat → Value) (words_column result_column : String)
    (group_keys : List String) (rows : List Row) : Option (List Row) :=
  (rows.foldlM (fun (wc : List (Value × Nat)) r =>
      (rowFind? r words_column).map (fun w => bumpCount wc w)) []).bind
    (fun counter => (lastRow? rows).bind (fun last =>
      (echoKeys group_keys last).map (fun common =>
        counter.map (fun p =>
          rowInsert (rowInsert common words_column p.1) result_column
            (vdivNN p.2 rows.length)))))

/-- The `TopN` reducer.  `heapq.nlargest(n, rows, key)` is equivalent to
a stable descending sort followed by `take n` (and `nsmallest` to an
ascending one); a missing sort column raises. -/
def topNR (column : String) (n : Nat) (ascending : Bool) (_group_key : List String)
    (rows : List Row) : Option (List Row) :=
  if rows.all (fun r => rowContains r column) then
    some (if ascending then
      (rows.mergeSort (fun a b =>
        ! Value.ltb ((rowFind? a column).getD (Value.int 0))
          ((rowFind? b column).getD (Value.int 0)))).take n
    else
      (rows.mergeSort (fun a b =>
        ! Value.ltb ((rowFind? b column).getD (Value.int 0))
          ((rowFind? a column).getD (Value.int 0)))).take n)
  else none

/- ### Basic facts about row operations -/

theorem rowFind?_insert_self (r : Row) (k : String) (v : Value) :
    rowFind? (rowInsert r k v) k = some v := by
  induction r with
  | nil => simp [rowInsert, rowFind?]
  | cons kv rest ih =>
    obtain ⟨k1, v1⟩ := kv
    by_cases hk : k1 = k <;> simp [rowInsert, rowFind?, hk, ih]

theorem rowFind?_insert_ne (r : Row) (k k2 : String) (v : Value) (h : k ≠ k2) :
    rowFind? (rowInsert r k v) k2 = rowFind? r k2 := by
  induction r with
  | nil => simp [rowInsert, rowFind?, h]
  | cons kv rest ih =>
    obtain ⟨k1, v1⟩ := kv
    by_cases hk : k1 = k
    · subst hk
      simp [rowInsert, rowFind?, h]
    · by_cases hk2 : k1 = k2 <;> simp [rowInsert, rowFind?, hk, hk2, ih, Ne.symm h]

theorem rowInsert_eq_append (r : Row) (k : String) (v : Value)
    (h : rowFind? r k = none) : rowInsert r k v = r ++ [(k, v)] := by
  induction r with
  | nil => simp [rowInsert]
  | cons kv rest ih =>
    obtain ⟨k1, v1⟩ := kv
    by_cases hk : k1 = k
    · simp [rowFind?, hk] at h
    · simp only [rowFind?, hk, if_false] at h
      simp [rowInsert, hk, ih h]

/- ### C1 — row mutation by the stock mappers -/

/-- C1, counterexample.  The claim says no stock mapper ever mutates the
row it received, but `FilterPunctuation` writes the stripped string back
into the received row: after pulling the mapper's output on the row
`(a : "x,")`, the row's state is `(a : "x")`, no longer what it held
before. -/
theorem C1_counterexample :
    filterPunctuationM "a" [("a", Value.str "x,")] =
      some ([("a", Value.str "x")], [[("a", Value.str "x")]])
    ∧ ([("a", Value.str "x")] : Row) ≠ [("a", Value.str "x,")] := by
  constructor
  · decide
  · decide

/-- C1, amended.  The column-writing stock mappers (`FilterPunctuation`,
`LowerCase`, `Product`, `InverseFrequency`) mutate the received row in
place and yield exactly that mutated row, so a column change lands in
the row the operator received; only `Split` and `Project` leave the
received row unchanged and emit fresh rows. -/
theorem C1_amended_in_place_mutation (c out n2 d2 : String) (cols : List String)
    (sep : Option String) (vld : Value → Value → Value) (r post : Row) (outs : List Row) :
    (filterPunctuationM c r = some (post, outs) → outs = [post])
    ∧ (lowerCaseM c r = some (post, outs) → outs = [post])
    ∧ (productM cols out r = some (post, outs) → outs = [post])
    ∧ (inverseFrequencyM vld n2 d2 out r = some (post, outs) → outs = [post])
    ∧ (splitM c sep r = some (post, outs) → post = r)
    ∧ (projectM cols r = some (post, outs) → post = r) := by
  refine ⟨?_, ?_, ?_, ?_, ?_, ?_⟩
  · intro h
    simp only [filterPunctuationM, Option.map_eq_some'] at h
    obtain ⟨s, -, h2⟩ := h
    simp only [Prod.mk.injEq] at h2
    obtain ⟨rfl, rfl⟩ := h2
    rfl
  · intro h
    simp only [lowerCaseM, Option.map_eq_some'] at h
    obtain ⟨s, -, h2⟩ := h
    simp only [Prod.mk.injEq] at h2
    obtain ⟨rfl, rfl⟩ := h2
    rfl
  · intro h
    simp only [productM, Option.map_eq_some'] at h
    obtain ⟨r1, -, h2⟩ := h
    simp only [Prod.mk.injEq] at h2
    obtain ⟨rfl, rfl⟩ := h2
    rfl
  · intro h
    simp only [inverseFrequencyM, Option.bind_eq_some, Option.map_eq_some'] at h
    obtain ⟨a, -, b, -, h2⟩ := h
    simp only [Prod.mk.injEq] at h2
    obtain ⟨rfl, rfl⟩ := h2
    rfl
  · intro h
    simp only [splitM, Option.bind_eq_some] at h
    obtain ⟨s, -, h2⟩ := h
    cases sep with
    | none =>
      simp only [Option.some_inj, Prod.mk.injEq] at h2
      exact h2.1.symm
    | some sp =>
      by_cases hsp : sp = "" <;> simp only [hsp, if_true, if_false] at h2
      · simp only [reduceCtorEq] at h2
      · simp only [Option.some_inj, Prod.mk.injEq] at h2
        exact h2.1.symm
  · intro h
    simp only [projectM, Option.map_eq_some'] at h
    obtain ⟨res, -, h2⟩ := h
    simp only [Prod.mk.injEq] at h2
    exact h2.1.symm

/-- C1, witness for the amended theorem at a concrete input. -/
theorem C1_witness :
    filterPunctuationM "a" [("a", Value.str "x,")] =
      some ([("a", Value.str "x")], [[("a", Value.str "x")]])
    ∧ ([[("a", Value.str "x")]] : List Row) = [[("a", Value.str "x")]] :=
  ⟨by decide,
    (C1_amended_in_place_mutation "a" "o" "n" "d" [] none (fun _ _ => Value.int 0)
      [("a", Value.str "x,")] [("a", Value.str "x")] [[("a", Value.str "x")]]).1 (by decide)⟩

/- ### C6 — behavior on a missing column -/

theorem project_fold_none (r : Row) (c : String) (hc : rowFind? r c = none) :
    ∀ (cols : List String) (acc : Row), c ∈ cols →
      cols.foldlM (fun (a : Row) x => (rowFind? r x).map (fun v => rowInsert a x v)) acc
        = none := by
  intro cols
  induction cols with
  | nil => intro acc h; cases h
  | cons x cols ih =>
    intro acc hmem
    by_cases hx : x = c
    · subst hx
      simp [List.foldlM_cons, hc]
    · rcases List.mem_cons.mp hmem with h | h
      · exact absurd h.symm hx
      · cases hfx : rowFind? r x with
        | none => simp [List.foldlM_cons, hfx]
        | some v => simp [List.foldlM_cons, hfx, ih _ h]

theorem product_fold_none (c out : String) (hne : c ≠ out) :
    ∀ (cols : List String) (cur : Row), c ∈ cols → rowFind? cur c = none →
      cols.foldlM (fun (cur : Row) x => (rowFind? cur x).bind (fun v =>
        (vmul ((rowFind? cur out).getD (Value.int 0)) v).map
          (fun p => rowInsert cur out p))) cur = none := by
  intro cols
  induction cols with
  | nil => intro cur h; cases h
  | cons x cols ih =>
    intro cur hmem hcur
    by_cases hx : x = c
    · subst hx
      simp [List.foldlM_cons, hcur]
    · rcases List.mem_cons.mp hmem with h | h
      · exact absurd h.symm hx
      · cases hfx : rowFind? cur x with
        | none => simp [List.foldlM_cons, hfx]
        | some v =>
          cases hm : vmul ((rowFind? cur out).getD (Value.int 0)) v with
          | none => simp [List.foldlM_cons, hfx, hm]
          | some p =>
            have hcur2 : rowFind? (rowInsert cur out p) c = none := by
              rw [rowFind?_insert_ne cur out c p (fun hh => hne hh.symm)]
              exact hcur
            simp [List.foldlM_cons, hfx, hm, ih _ h hcur2]

/-- C6.  On a row missing the referenced column, `FilterPunctuation`,
`LowerCase` and `Split` default the column to the empty string and
succeed, while `Project`, `Product` and `InverseFrequency` fail the run
(`Split` still fails on the independent empty-separator `ValueError`,
and `Product` reads its columns only after writing `1` into its result
column, so the failing column must be a read one). -/
theorem C6_schema_errors (r : Row) (c out n2 d2 : String) (cols : List String)
    (sep : Option String) (vld : Value → Value → Value)
    (hmiss : rowFind? r c = none) :
    (filterPunctuationM c r).isSome
    ∧ (lowerCaseM c r).isSome
    ∧ (sep ≠ some "" → (splitM c sep r).isSome)
    ∧ (c ∈ cols → projectM cols r = none)
    ∧ (c ∈ cols → c ≠ out → productM cols out r = none)
    ∧ (inverseFrequencyM vld c d2 out r = none)
    ∧ (inverseFrequencyM vld n2 c out r = none) := by
  have hget : getStrD r c = some "" := by simp [getStrD, hmiss]
  refine ⟨?_, ?_, ?_, ?_, ?_, ?_, ?_⟩
  · simp [filterPunctuationM, hget]
  · simp [lowerCaseM, hget]
  · intro hsep
    cases sep with
    | none => simp [splitM, hget]
    | some sp =>
      have : sp ≠ "" := fun h => hsep (by rw [h])
      simp [splitM, hget, this]
  · intro hmem
    simp [projectM, project_fold_none r c hmiss cols emptyRow hmem]
  · intro hmem hne
    have h0 : rowFind? (rowInsert r out (Value.int 1)) c = none := by
      rw [rowFind?_insert_ne r out c (Value.int 1) (fun hh => hne hh.symm)]
      exact hmiss
    simp [productM, product_fold_none c out hne cols _ hmem h0]
  · simp [inverseFrequencyM, hmiss]
  · cases hfn : rowFind? r n2 with
    | none => simp [inverseFrequencyM, hfn]
    | some a => simp [inverseFrequencyM, hfn, hmiss]

/-- C6, witness at a concrete input: the row `(x : 1)` lacks column
`y`. -/
theorem C6_witness :
    rowFind? [("x", Value.int 1)] "y" = none
    ∧ projectM ["y"] [("x", Value.int 1)] = none :=
  ⟨by decide,
    (C6_schema_errors [("x", Value.int 1)] "y" "p" "x" "x" ["y"] none
      (fun _ _ => Value.int 0) (by decide)).2.2.2.1 (by decide)⟩

/- ### C10 — the Split mapper with the default separator -/

theorem splitWsGo_eq_nil_iff (cs : List Char) :
    ∀ acc, (splitWsGo acc cs = [] ↔ (acc = [] ∧ cs.all isPySpace)) := by
  induction cs with
  | nil =>
    intro acc
    by_cases h : acc = [] <;> simp [splitWsGo, h]
  | cons c cs ih =>
    intro acc
    by_cases hsp : isPySpace c
    · by_cases h : acc = []
      · simp [splitWsGo, hsp, h, ih, List.all_cons]
      · simp [splitWsGo, hsp, h, List.all_cons]
    · have hne : ¬ (c :: acc = []) := by simp
      simp [splitWsGo, hsp, ih, hne, List.all_cons]

theorem splitWsGo_tokens (cs : List Char) :
    ∀ acc, (∀ ch ∈ acc, ¬ (isPySpace ch = true)) →
      ∀ t ∈ splitWsGo acc cs, t ≠ "" ∧ t.data.all (fun ch => !isPySpace ch) := by
  induction cs with
  | nil =>
    intro acc hacc t ht
    by_cases h : acc = []
    · simp [splitWsGo, h] at ht
    · simp only [splitWsGo, h, if_false, List.mem_singleton] at ht
      subst ht
      constructor
      · intro hcon
        have : acc.reverse = [] := congrArg String.data hcon
        simp at this
        exact h this
      · simp only [List.all_eq_true]
        intro ch hch
        simp only [Bool.not_eq_true']
        exact Bool.not_eq_true _ ▸ (by
          have := hacc ch (List.mem_reverse.mp hch)
          simpa using this)
  | cons c cs ih =>
    intro acc hacc t ht
    by_cases hsp : isPySpace c
    · by_cases h : acc = []
      · simp only [splitWsGo, hsp, if_true, h] at ht
        exact ih [] (by simp) t ht
      · simp only [splitWsGo, hsp, if_true, h, if_false, List.mem_cons] at ht
        rcases ht with ht | ht
        · subst ht
          constructor
          · intro hcon
            have : acc.reverse = [] := congrArg String.data hcon
            simp at this
            exact h this
          · simp only [List.all_eq_true]
            intro ch hch
            have := hacc ch (List.mem_reverse.mp hch)
            simpa using this
        · exact ih [] (by simp) t ht
    · simp only [splitWsGo, hsp, if_false] at ht
      refine ih (c :: acc) ?_ t ht
      intro ch hch
      rcases List.mem_cons.mp hch with h | h
      · subst h; exact hsp
      · exact hacc ch h

/-- C10.  With the default separator, `Split` leaves the received row
unchanged and emits one fresh copy of it per whitespace-delimited token,
with only the split column replaced; the token list is empty exactly
when the column's string is empty or all whitespace (so `Split` then
filters the row out), and every token is non-empty and
whitespace-free. -/
theorem C10_split_default (r : Row) (c s : String) (h : getStrD r c = some s) :
    splitM c none r = some (r, (pysplitNone s).map (fun t => rowInsert r c (Value.str t)))
    ∧ (pysplitNone s = [] ↔ s.data.all isPySpace)
    ∧ (∀ t ∈ pysplitNone s, t ≠ "" ∧ t.data.all (fun ch => !isPySpace ch)) := by
  refine ⟨?_, ?_, ?_⟩
  · simp [splitM, h]
  · have := splitWsGo_eq_nil_iff s.data []
    simpa [pysplitNone] using this
  · exact splitWsGo_tokens s.data [] (by simp)

/-- C10, witness at a concrete input: splitting `"a b"`. -/
theorem C10_witness :
    splitM "t" none [("t", Value.str "a b")] =
      some ([("t", Value.str "a b")],
        (pysplitNone "a b").map (fun t => rowInsert [("t", Value.str "a b")] "t" (Value.str t))) :=
  (C10_split_default [("t", Value.str "a b")] "t" "a b" (by decide)).1

/- ### C5 — the row-merge helper against its specification -/

/-- C5.  The row-merge helper returns exactly the row the spec
describes: the first pass places, for each column of `a`, either the
suffixed pair (when the column collides outside the keys) or the column
itself; the second pass adds the columns of `b` not already placed
directly or under their suffixed form; and when the left argument is the
empty sentinel row the rows and the suffixes swap roles. -/
theorem C5_merge_refines_spec (a b : Row) (sa sb : String) (keys : List String) :
    merge_two_dicts_by_keys a b sa sb keys = mergeRowsSpec a b sa sb keys := by
  by_cases h : a = emptyRow
  · have hlen : a.length = 0 := by rw [h]; rfl
    unfold merge_two_dicts_by_keys mergeRowsSpec mergePassA mergePassB
    simp [h, hlen, emptyRow]
  · have h2 : ¬ a = [] := fun hc => h (by rw [hc]; rfl)
    have hlen : ¬ a.length = 0 := by
      simp only [List.length_eq_zero]
      exact h2
    unfold merge_two_dicts_by_keys mergeRowsSpec mergePassA mergePassB
    simp [h2, hlen, emptyRow]

/- ### C4 — the four joiner strategies -/

theorem cartMerge_length (sa sb : String) (keys : List String) (a b : List Row) :
    (cartMerge sa sb keys a b).length = a.length * b.length := by
  induction a with
  | nil => simp [cartMerge]
  | cons ra rest ih =>
    simp only [cartMerge, List.flatMap_cons, List.length_append, List.length_map,
      List.length_cons] at *
    rw [ih]
    ring

/-- C4.  With two real groups (neither the one-element empty-row
sentinel) every joiner strategy emits exactly one merged row per pair of
the Cartesian product `rows_a × rows_b`; with the sentinel on one side,
`InnerJoiner` emits nothing, `LeftJoiner` emits only when the sentinel
is on the right, `RightJoiner` only when it is on the left, and
`OuterJoiner` emits in both cases. -/
theorem C4_joiner_strategies (sa sb : String) (keys : List String) (a b : List Row)
    (ha : a ≠ [emptyRow]) (hb : b ≠ [emptyRow]) (hane : a ≠ []) (hbne : b ≠ []) :
    (innerJoinerF sa sb keys a b = cartMerge sa sb keys a b
      ∧ outerJoinerF sa sb keys a b = cartMerge sa sb keys a b
      ∧ leftJoinerF sa sb keys a b = cartMerge sa sb keys a b
      ∧ rightJoinerF sa sb keys a b = cartMerge sa sb keys a b
      ∧ (cartMerge sa sb keys a b).length = a.length * b.length)
    ∧ (innerJoinerF sa sb keys a [emptyRow] = [] ∧ innerJoinerF sa sb keys [emptyRow] b = [])
    ∧ (leftJoinerF sa sb keys a [emptyRow] = cartMerge sa sb keys a [emptyRow]
      ∧ leftJoinerF sa sb keys a [emptyRow] ≠ []
      ∧ leftJoinerF sa sb keys [emptyRow] b = [])
    ∧ (rightJoinerF sa sb keys [emptyRow] b = cartMerge sa sb keys [emptyRow] b
      ∧ rightJoinerF sa sb keys [emptyRow] b ≠ []
      ∧ rightJoinerF sa sb keys a [emptyRow] = [])
    ∧ (outerJoinerF sa sb keys a [emptyRow] = cartMerge sa sb keys a [emptyRow]
      ∧ outerJoinerF sa sb keys [emptyRow] b = cartMerge sa sb keys [emptyRow] b) := by
  have hlenA : a.length ≠ 0 := by
    simp only [ne_eq, List.length_eq_zero]
    exact hane
  have hlenB : b.length ≠ 0 := by
    simp only [ne_eq, List.length_eq_zero]
    exact hbne
  refine ⟨⟨?_, ?_, ?_, ?_, ?_⟩, ⟨?_, ?_⟩, ⟨?_, ?_, ?_⟩, ⟨?_, ?_, ?_⟩, ⟨?_, ?_⟩⟩
  · simp [innerJoinerF, ha, hb]
  · simp [outerJoinerF]
  · simp [leftJoinerF, ha]
  · simp [rightJoinerF, hb]
  · exact cartMerge_length sa sb keys a b
  · simp [innerJoinerF]
  · simp [innerJoinerF]
  · simp [leftJoinerF, ha]
  · intro hcon
    have := cartMerge_length sa sb keys a [emptyRow]
    rw [leftJoinerF, if_neg ha] at hcon
    rw [hcon] at this
    simp at this
    exact hlenA this.symm
  · simp [leftJoinerF]
  · simp [rightJoinerF, hb]
  · intro hcon
    have := cartMerge_length sa sb keys [emptyRow] b
    rw [rightJoinerF, if_neg hb] at hcon
    rw [hcon] at this
    simp at this
    exact hlenB this.symm
  · simp [rightJoinerF]
  · simp [outerJoinerF]
  · simp [outerJoinerF]

/-- C4, witness at concrete one-row groups sharing key `k`. -/
theorem C4_witness :
    innerJoinerF "_1" "_2" ["k"] [[("k", Value.int 1)]] [[("k", Value.int 1), ("v", Value.int 2)]]
      = cartMerge "_1" "_2" ["k"] [[("k", Value.int 1)]] [[("k", Value.int 1), ("v", Value.int 2)]] :=
  (C4_joiner_strategies "_1" "_2" ["k"] [[("k", Value.int 1)]]
    [[("k", Value.int 1), ("v", Value.int 2)]]
    (by decide) (by decide) (by decide) (by decide)).1.1

/- ### C2 — the grouping iterator -/

theorem charLtb_asymm (a b : Char) (h1 : charLtb a b = true) (h2 : charLtb b a = true) :
    False := by
  simp only [charLtb, decide_eq_true_eq] at h1 h2
  omega

theorem charsLtb_asymm :
    ∀ (l1 l2 : List Char), charsLtb l1 l2 = true → charsLtb l2 l1 = true → False := by
  intro l1
  induction l1 with
  | nil =>
    intro l2 h1 h2
    cases l2 with
    | nil => simp [charsLtb] at h1
    | cons b bs => simp [charsLtb] at h2
  | cons a as ih =>
    intro l2 h1 h2
    cases l2 with
    | nil => simp [charsLtb] at h1
    | cons b bs =>
      simp only [charsLtb, Bool.or_eq_true, Bool.and_eq_true, decide_eq_true_eq] at h1 h2
      rcases h1 with h1 | ⟨hab, h1⟩
      · rcases h2 with h2 | ⟨hba, h2⟩
        · exact charLtb_asymm a b h1 h2
        · subst hba
          simp [charLtb] at h1
      · subst hab
        rcases h2 with h2 | ⟨-, h2⟩
        · simp [charLtb] at h2
        · exact ih bs h1 h2

theorem Value.ltb_asymm (a b : Value) (h1 : Value.ltb a b = true)
    (h2 : Value.ltb b a = true) : False := by
  cases a with
  | int x =>
    cases b with
    | int y => simp only [Value.ltb, decide_eq_true_eq] at h1 h2; omega
    | str y => simp [Value.ltb] at h2
  | str x =>
    cases b with
    | int y => simp [Value.ltb] at h1
    | str y => exact charsLtb_asymm x.data y.data h1 h2

theorem ovLtb_asymm (a b : Option Value) (h1 : ovLtb a b = true)
    (h2 : ovLtb b a = true) : False := by
  cases a with
  | none =>
    cases b with
    | none => simp [ovLtb] at h1
    | some y => simp [ovLtb] at h2
  | some x =>
    cases b with
    | none => simp [ovLtb] at h1
    | some y => exact Value.ltb_asymm x y h1 h2

theorem lexLtb_asymm :
    ∀ (l1 l2 : List (Option Value)), lexLtb l1 l2 = true → lexLtb l2 l1 = true → False := by
  intro l1
  induction l1 with
  | nil =>
    intro l2 h1 h2
    cases l2 with
    | nil => simp [lexLtb] at h1
    | cons b bs => simp [lexLtb] at h2
  | cons a as ih =>
    intro l2 h1 h2
    cases l2 with
    | nil => simp [lexLtb] at h1
    | cons b bs =>
      simp only [lexLtb, Bool.or_eq_true, Bool.and_eq_true, beq_iff_eq] at h1 h2
      rcases h1 with h1 | ⟨hab, h1⟩
      · rcases h2 with h2 | ⟨hba, h2⟩
        · exact ovLtb_asymm a b h1 h2
        · subst hba
          exact ovLtb_asymm b b h1 h1
      · subst hab
        rcases h2 with h2 | ⟨-, h2⟩
        · exact ovLtb_asymm a a h2 h2
        · exact ih bs h1 h2

theorem keyLe_antisymm (a b : List (Option Value)) (h1 : keyLe a b) (h2 : keyLe b a) :
    a = b := by
  rcases h1 with h1 | h1
  · exact h1
  · rcases h2 with h2 | h2
    · exact h2.symm
    · exact (lexLtb_asymm a b h1 h2).elim

theorem groupsGo_flatten (keys : List String) (rs : List Row) :
    ∀ seed acc, (groupsGo keys seed acc rs).flatten = seed :: acc.reverse ++ rs := by
  induction rs with
  | nil => intro seed acc; simp [groupsGo]
  | cons r rs ih =>
    intro seed acc
    by_cases h : keyTuple keys r = keyTuple keys seed
    · simp [groupsGo, h, ih]
    · simp [groupsGo, h, ih]

theorem groupsOf_flatten (keys : List String) (rows : List Row) :
    (groupsOf keys rows).flatten = rows := by
  cases rows with
  | nil => rfl
  | cons r rs => simpa using groupsGo_flatten keys rs r []

theorem groupsGo_ne_nil (keys : List String) (rs : List Row) :
    ∀ seed acc g, g ∈ groupsGo keys seed acc rs → g ≠ [] := by
  induction rs with
  | nil =>
    intro seed acc g hg
    simp only [groupsGo, List.mem_singleton] at hg
    subst hg
    simp
  | cons r rs ih =>
    intro seed acc g hg
    by_cases h : keyTuple keys r = keyTuple keys seed
    · simp only [groupsGo, h, if_true] at hg
      exact ih seed (r :: acc) g hg
    · simp only [groupsGo, h, if_false, List.mem_cons] at hg
      rcases hg with hg | hg
      · subst hg; simp
      · exact ih r [] g hg

theorem groupsGo_keys_sorted (keys : List String) (rs : List Row) :
    ∀ seed acc,
      ((keyTuple keys seed :: rs.map (keyTuple keys)).Pairwise keyLe) →
      (groupsGo keys seed acc rs).map (groupKeyOf keys)
        = firstDedup (keyTuple keys seed :: rs.map (keyTuple keys)) := by
  induction rs with
  | nil =>
    intro seed acc _
    simp [groupsGo, groupKeyOf, firstDedup]
  | cons r rs ih =>
    intro seed acc hp
    by_cases h : keyTuple keys r = keyTuple keys seed
    · have hp2 : (keyTuple keys seed :: rs.map (keyTuple keys)).Pairwise keyLe := by
        refine List.Pairwise.sublist ?_ hp
        exact List.Sublist.cons₂ _ (List.sublist_cons_self _ _)
      simp only [groupsGo, h, if_true]
      rw [ih seed (r :: acc) hp2, List.map_cons]
      have hfilter : List.filter (fun x => x ≠ keyTuple keys seed)
          (keyTuple keys r :: rs.map (keyTuple keys))
          = List.filter (fun x => x ≠ keyTuple keys seed) (rs.map (keyTuple keys)) := by
        rw [List.filter_cons]
        simp [h]
      conv_lhs => rw [firstDedup]
      conv_rhs => rw [firstDedup, hfilter]
    · have hp2 : (keyTuple keys r :: rs.map (keyTuple keys)).Pairwise keyLe :=
        (List.pairwise_cons.mp hp).2
      have hno : ∀ y ∈ rs.map (keyTuple keys), ¬ (y = keyTuple keys seed) := by
        intro y hy hcon
        have hsk : keyLe (keyTuple keys seed) (keyTuple keys r) :=
          (List.pairwise_cons.mp hp).1 _ (by simp)
        have hry : keyLe (keyTuple keys r) y :=
          (List.pairwise_cons.mp hp2).1 _ hy
        rw [hcon] at hry
        exact h (keyLe_antisymm _ _ hry hsk)
      simp only [groupsGo, h, if_false, List.map_cons]
      have hhead : groupKeyOf keys (seed :: acc.reverse) = keyTuple keys seed := rfl
      rw [hhead, ih r [] hp2]
      have hfilter : List.filter (fun x => x ≠ keyTuple keys seed)
          (keyTuple keys r :: rs.map (keyTuple keys))
          = keyTuple keys r :: rs.map (keyTuple keys) := by
        rw [List.filter_eq_self]
        intro y hy
        rcases List.mem_cons.mp hy with hy | hy
        · subst hy; simpa using h
        · simpa using hno y hy
      conv_rhs => rw [firstDedup, hfilter]

/-- C2, counterexample.  On an upstream that is not key-sorted the
grouping iterator cuts a new group at every key change, so the same key
tuple can head several groups and the groups are not in bijection with
the key tuples in order of first appearance: keys `1, 2, 1` produce
three groups with keys `1, 2, 1`, not the first-appearance order
`1, 2`. -/
theorem C2_counterexample :
    (groupsOf ["a"] [[("a", Value.int 1)], [("a", Value.int 2)], [("a", Value.int 1)]]).map
        (groupKeyOf ["a"])
      ≠ firstDedup ([[("a", Value.int 1)], [("a", Value.int 2)], [("a", Value.int 1)]].map
          (keyTuple ["a"])) := by
  have h1 : (groupsOf ["a"] [[("a", Value.int 1)], [("a", Value.int 2)],
      [("a", Value.int 1)]]).map (groupKeyOf ["a"])
      = [[some (Value.int 1)], [some (Value.int 2)], [some (Value.int 1)]] := by decide
  have h2 : firstDedup ([[("a", Value.int 1)], [("a", Value.int 2)],
      [("a", Value.int 1)]].map (keyTuple ["a"]))
      = [[some (Value.int 1)], [some (Value.int 2)]] := by
    rw [show ([[("a", Value.int 1)], [("a", Value.int 2)],
      [("a", Value.int 1)]].map (keyTuple ["a"]))
      = [[some (Value.int 1)], [some (Value.int 2)], [some (Value.int 1)]] from by decide]
    rw [firstDedup]
    rw [show ([[some (Value.int 2)], [some (Value.int 1)]].filter
      (fun x => x ≠ [some (Value.int 1)])) = [[some (Value.int 2)]] from by decide]
    rw [firstDedup]
    rw [show ([] : List (List (Option Value))).filter
      (fun x => x ≠ [some (Value.int 2)]) = [] from rfl]
    rw [firstDedup]
  rw [h1, h2]
  decide

/-- C2, amended.  For every finite upstream and key list the grouping
iterator yields each upstream row exactly once, in order, across the
concatenation of all groups, and an empty upstream produces no groups;
when the upstream is sorted ascending on the key tuple (the engine's
precondition for `Reduce` and `Join`), the groups moreover carry the
distinct key tuples in the order of their first appearance. -/
theorem C2_amended_grouping (keys : List String) (rows : List Row) :
    (groupsOf keys rows).flatten = rows
    ∧ (rows = [] → groupsOf keys rows = [])
    ∧ ((rows.map (keyTuple keys)).Pairwise keyLe →
        (groupsOf keys rows).map (groupKeyOf keys) = firstDedup (rows.map (keyTuple keys))) := by
  refine ⟨groupsOf_flatten keys rows, ?_, ?_⟩
  · intro h; subst h; rfl
  · intro hp
    cases rows with
    | nil => simp [groupsOf, firstDedup]
    | cons r rs =>
      simp only [List.map_cons] at hp ⊢
      exact groupsGo_keys_sorted keys rs r [] hp

/-- C2, witness: a sorted two-key upstream. -/
theorem C2_witness :
    (groupsOf ["a"] [[("a", Value.int 1)], [("a", Value.int 1)], [("a", Value.int 2)]]).flatten
      = [[("a", Value.int 1)], [("a", Value.int 1)], [("a", Value.int 2)]] :=
  (C2_amended_grouping ["a"]
    [[("a", Value.int 1)], [("a", Value.int 1)], [("a", Value.int 2)]]).1

/- ### C7 — the reduce key echo -/

theorem lastRow?_mem : ∀ (l : List Row) (r : Row), lastRow? l = some r → r ∈ l := by
  intro l
  induction l with
  | nil => intro r h; simp [lastRow?] at h
  | cons x rest ih =>
    intro r h
    cases rest with
    | nil =>
      simp only [lastRow?, Option.some_inj] at h
      simp [h]
    | cons y rs =>
      simp only [lastRow?] at h
      exact List.mem_cons_of_mem x (ih r h)

theorem echo_fold_preserve :
    ∀ (keys : List String) (last acc ans : Row),
      keys.foldlM (fun (a : Row) k2 => (rowFind? last k2).map (fun v => rowInsert a k2 v)) acc
        = some ans →
      ∀ k, k ∉ keys → rowFind? ans k = rowFind? acc k := by
  intro keys
  induction keys with
  | nil =>
    intro last acc ans h k _
    simp only [List.foldlM_nil, Option.pure_def, Option.some_inj] at h
    rw [h]
  | cons k2 keys ih =>
    intro last acc ans h k hk
    simp only [List.foldlM_cons] at h
    cases hv : rowFind? last k2 with
    | none => rw [hv] at h; simp at h
    | some v =>
      rw [hv] at h
      simp only [Option.map_some', Option.bind_eq_bind, Option.some_bind] at h
      have hne : k2 ≠ k := fun hc => hk (hc ▸ List.mem_cons_self k2 keys)
      rw [ih last _ ans h k (fun hc => hk (List.mem_cons_of_mem _ hc))]
      exact rowFind?_insert_ne acc k2 k v hne

theorem echo_fold_find? :
    ∀ (keys : List String) (last acc ans : Row),
      keys.foldlM (fun (a : Row) k2 => (rowFind? last k2).map (fun v => rowInsert a k2 v)) acc
        = some ans →
      ∀ k ∈ keys, rowFind? ans k = rowFind? last k := by
  intro keys
  induction keys with
  | nil => intro last acc ans _ k hk; cases hk
  | cons k2 keys ih =>
    intro last acc ans h k hk
    simp only [List.foldlM_cons] at h
    cases hv : rowFind? last k2 with
    | none => rw [hv] at h; simp at h
    | some v =>
      rw [hv] at h
      simp only [Option.map_some', Option.bind_eq_bind, Option.some_bind] at h
      by_cases hmem : k ∈ keys
      · exact ih last _ ans h k hmem
      · have hk2 : k = k2 := by
          rcases List.mem_cons.mp hk with h1 | h1
          · exact h1
          · exact absurd h1 hmem
        subst hk2
        rw [echo_fold_preserve keys last _ ans h k hmem]
        rw [rowFind?_insert_self acc k v]
        exact hv.symm

/-- C7, counterexample.  With the two grouping keys `a, b`, the `Sum`
reducer emits a row holding only the first key column `a`: the column
`b` of the group is absent from the emitted row, against the claim that
every emitted row carries all grouping-key columns. -/
theorem C7_counterexample :
    sumR "x" ["a", "b"] [[("a", Value.int 1), ("b", Value.int 2), ("x", Value.int 3)]]
      = some [[("a", Value.int 1), ("x", Value.int 3)]]
    ∧ rowFind? [("a", Value.int 1), ("x", Value.int 3)] "b" = none := by
  constructor
  · decide
  · decide

/-- C7, amended.  On a non-empty group whose rows agree on a grouping
key `k` (with value `v`), every row emitted by `FirstReducer`, `Count`,
`Mean`, `TermFrequency` and `TopN` carries `k` with value `v` (for
`Count`/`Mean`/`TermFrequency` provided their output columns do not
shadow a grouping key); the `Sum` reducer carries only the *first*
grouping-key column, with the group's value. -/
theorem C7_amended_key_echo (vdiv : Value → Nat → Value) (vdivNN : Nat → Nat → Value)
    (col wordsCol resCol : String) (n : Nat) (asc : Bool)
    (keys : List String) (grp : List Row) (k : String) (v : Value)
    (hk : k ∈ keys) (hv : ∀ r ∈ grp, rowFind? r k = some v) :
    (∀ r ∈ firstReducerR keys grp, rowFind? r k = some v)
    ∧ (col ∉ keys → ∀ out, countR col keys grp = some out →
        ∀ r ∈ out, rowFind? r k = some v)
    ∧ (col ∉ keys → ∀ out, meanR vdiv col keys grp = some out →
        ∀ r ∈ out, rowFind? r k = some v)
    ∧ (wordsCol ∉ keys → resCol ∉ keys → ∀ out,
        termFrequencyR vdivNN wordsCol resCol keys grp = some out →
        ∀ r ∈ out, rowFind? r k = some v)
    ∧ (∀ out, topNR col n asc keys grp = some out → ∀ r ∈ out, rowFind? r k = some v)
    ∧ (k = keys.headD "" → col ≠ k → ∀ out, sumR col keys grp = some out →
        ∀ r ∈ out, rowFind? r k = some v) := by
  refine ⟨?_, ?_, ?_, ?_, ?_, ?_⟩
  · intro r hr
    cases grp with
    | nil => cases hr
    | cons g0 rest =>
      simp only [firstReducerR, List.mem_singleton] at hr
      rw [hr]
      exact hv g0 (by simp)
  · intro hcol out hout r hr
    simp only [countR, Option.bind_eq_some, Option.map_eq_some'] at hout
    obtain ⟨last, hlast, ans, hans, rfl⟩ := hout
    simp only [List.mem_singleton] at hr
    subst hr
    have hne : col ≠ k := fun hc => hcol (hc ▸ hk)
    rw [rowFind?_insert_ne ans col k _ hne]
    rw [echo_fold_find? keys last emptyRow ans hans k hk]
    exact hv last (lastRow?_mem grp last hlast)
  · intro hcol out hout r hr
    simp only [meanR, Option.bind_eq_some, Option.map_eq_some'] at hout
    obtain ⟨s, hs, last, hlast, ans, hans, rfl⟩ := hout
    simp only [List.mem_singleton] at hr
    subst hr
    have hne : col ≠ k := fun hc => hcol (hc ▸ hk)
    rw [rowFind?_insert_ne ans col k _ hne]
    rw [echo_fold_find? keys last emptyRow ans hans k hk]
    exact hv last (lastRow?_mem grp last hlast)
  · intro hw hres out hout r hr
    simp only [termFrequencyR, Option.bind_eq_some, Option.map_eq_some'] at hout
    obtain ⟨counter, hcnt, last, hlast, common, hcom, rfl⟩ := hout
    simp only [List.mem_map] at hr
    obtain ⟨p, hp, rfl⟩ := hr
    have hneW : wordsCol ≠ k := fun hc => hw (hc ▸ hk)
    have hneR : resCol ≠ k := fun hc => hres (hc ▸ hk)
    rw [rowFind?_insert_ne _ resCol k _ hneR]
    rw [rowFind?_insert_ne _ wordsCol k _ hneW]
    rw [echo_fold_find? keys last emptyRow common hcom k hk]
    exact hv last (lastRow?_mem grp last hlast)
  · intro out hout r hr
    rw [topNR] at hout
    by_cases hall : grp.all (fun row => rowContains row col) = true
    · rw [if_pos hall, Option.some_inj] at hout
      subst hout
      have hmem : r ∈ grp := by
        split at hr
        · exact (List.mergeSort_perm grp _).mem_iff.mp (List.mem_of_mem_take hr)
        · exact (List.mergeSort_perm grp _).mem_iff.mp (List.mem_of_mem_take hr)
      exact hv r hmem
    · rw [if_neg hall] at hout
      exact absurd hout (by simp)
  · intro hk0 hne out hout r hr
    simp only [sumR, Option.bind_eq_some, Option.map_eq_some'] at hout
    obtain ⟨s, hs, last, hlast, k0, hk0v, v0, hv0, rfl⟩ := hout
    simp only [List.mem_singleton] at hr
    subst hr
    have hk0eq : k = k0 := by
      cases keys with
      | nil => cases hk0v
      | cons kh kt =>
        simp only [List.head?_cons, Option.some_inj] at hk0v
        simp only [List.headD_cons] at hk0
        rw [hk0, hk0v]
    subst hk0eq
    rw [rowFind?_insert_ne _ col k _ (fun hc => hne hc)]
    rw [rowFind?_insert_self emptyRow k v0]
    have hlv := hv last (lastRow?_mem grp last hlast)
    rw [hv0] at hlv
    exact hlv

/-- C7, witness: a single-row group grouped by `g`. -/
theorem C7_witness :
    ("g" ∈ ["g"])
    ∧ rowFind? [("g", Value.int 1), ("x", Value.int 2)] "g" = some (Value.int 1) :=
  ⟨by decide,
    (C7_amended_key_echo (fun _ _ => Value.int 0) (fun _ _ => Value.int 0)
      "x" "w" "tf" 1 true ["g"] [[("g", Value.int 1), ("x", Value.int 2)]] "g" (Value.int 1)
      (by decide) (by decide)).1 [("g", Value.int 1), ("x", Value.int 2)] (by decide)⟩

/- ### Comparison correspondence and the merge-join state machine -/

theorem keyTuple_length (keys : List String) (r : Row) :
    (keyTuple keys r).length = keys.length := List.length_map _ _

theorem groupKeyOf_length (keys : List String) (g : List Row) :
    (groupKeyOf keys g).length = keys.length := keyTuple_length keys _

theorem compare_match :
    ∀ (a b : List (Option Value)), a.length = b.length →
      compare_key_values a b =
        (match lexOrd a b with
         | Ordering.eq => ((1, 1) : Nat × Nat)
         | Ordering.lt => (0, 1)
         | Ordering.gt => (1, 0)) := by
  intro a
  induction a with
  | nil =>
    intro b hlen
    cases b with
    | nil => rfl
    | cons y ys => simp at hlen
  | cons x xs ih =>
    intro b hlen
    cases b with
    | nil => simp at hlen
    | cons y ys =>
      simp only [List.length_cons, Nat.succ_inj] at hlen
      by_cases h1 : ovLtb x y = true
      · simp [compare_key_values, lexOrd, ovCmp, h1]
      · by_cases h2 : ovLtb y x = true
        · simp [compare_key_values, lexOrd, ovCmp, h1, h2]
        · have hb1 : ovLtb x y = false := by simpa using h1
          have hb2 : ovLtb y x = false := by simpa using h2
          simp only [compare_key_values, lexOrd, ovCmp, hb1, hb2, Bool.false_eq_true,
            if_false]
          rw [ih ys hlen]

theorem charEqOfNotLt (a b : Char) (h1 : charLtb a b = false) (h2 : charLtb b a = false) :
    a = b := by
  simp only [charLtb, decide_eq_false_iff_not, not_lt] at h1 h2
  apply Char.ext
  apply UInt32.ext
  have : a.toNat = b.toNat := le_antisymm h2 h1
  simpa [Char.toNat] using this

theorem charsEqOfNotLt :
    ∀ (l1 l2 : List Char), charsLtb l1 l2 = false → charsLtb l2 l1 = false → l1 = l2 := by
  intro l1
  induction l1 with
  | nil =>
    intro l2 h1 h2
    cases l2 with
    | nil => rfl
    | cons b bs => simp [charsLtb] at h1
  | cons a as ih =>
    intro l2 h1 h2
    cases l2 with
    | nil => simp [charsLtb] at h2
    | cons b bs =>
      simp only [charsLtb, Bool.or_eq_false_iff, Bool.and_eq_false_iff,
        decide_eq_false_iff_not] at h1 h2
      have hab : a = b := charEqOfNotLt a b h1.1 h2.1
      subst hab
      rcases h1.2 with hc | hc
      · exact absurd rfl hc
      · rcases h2.2 with hd | hd
        · exact absurd rfl hd
        · rw [ih bs hc hd]

theorem valueEqOfNotLt (a b : Value) (h1 : Value.ltb a b = false)
    (h2 : Value.ltb b a = false) : a = b := by
  cases a with
  | int x =>
    cases b with
    | int y =>
      simp only [Value.ltb, decide_eq_false_iff_not, not_lt] at h1 h2
      have : x = y := le_antisymm h2 h1
      rw [this]
    | str y => simp [Value.ltb] at h1
  | str x =>
    cases b with
    | int y => simp [Value.ltb] at h2
    | str y =>
      have : x.data = y.data := charsEqOfNotLt x.data y.data h1 h2
      rw [String.ext this]

theorem ovEqOfNotLt (a b : Option Value) (h1 : ovLtb a b = false)
    (h2 : ovLtb b a = false) : a = b := by
  cases a with
  | none =>
    cases b with
    | none => rfl
    | some y => simp [ovLtb] at h1
  | some x =>
    cases b with
    | none => simp [ovLtb] at h2
    | some y => rw [valueEqOfNotLt x y h1 h2]

theorem lexOrd_eq_imp :
    ∀ (a b : List (Option Value)), a.length = b.length → lexOrd a b = Ordering.eq →
      a = b := by
  intro a
  induction a with
  | nil =>
    intro b hlen _
    cases b with
    | nil => rfl
    | cons y ys => simp at hlen
  | cons x xs ih =>
    intro b hlen heq
    cases b with
    | nil => simp at hlen
    | cons y ys =>
      simp only [List.length_cons, Nat.succ_inj] at hlen
      by_cases h1 : ovLtb x y = true
      · simp [lexOrd, ovCmp, h1] at heq
      · by_cases h2 : ovLtb y x = true
        · simp [lexOrd, ovCmp, h1, h2] at heq
        · have hx : x = y := ovEqOfNotLt x y (by simpa using h1) (by simpa using h2)
          simp only [lexOrd, ovCmp, h1, h2, Bool.not_eq_true, if_false, if_neg] at heq
          rw [hx, ih ys hlen (by simpa [ovCmp, h1, h2] using heq)]

theorem mergeJoin_eq_spec (keys : List String) (J : List Row → List Row → List Row) :
    ∀ (N : Nat) (lgs rgs : List (List Row)), lgs.length + rgs.length ≤ N →
      (∀ g ∈ lgs, g.headD emptyRow ≠ emptyRow) →
      (∀ g ∈ rgs, g.headD emptyRow ≠ emptyRow) →
      mergeJoin keys J lgs rgs = mergeJoinSpec keys J lgs rgs := by
  intro N
  induction N with
  | zero =>
    intro lgs rgs hlen _ _
    cases lgs with
    | nil => simp [mergeJoin, mergeJoinSpec]
    | cons lg lgs => simp at hlen
  | succ N ih =>
    intro lgs rgs hlen hl hr
    cases lgs with
    | nil => simp [mergeJoin, mergeJoinSpec]
    | cons lg lgs =>
      cases rgs with
      | nil => simp [mergeJoin, mergeJoinSpec]
      | cons rg rgs =>
        have hlg : lg.headD emptyRow ≠ emptyRow := hl lg (by simp)
        have hrg : rg.headD emptyRow ≠ emptyRow := hr rg (by simp)
        have hcond : ¬ (lg.headD emptyRow = emptyRow ∨ rg.headD emptyRow = emptyRow) := by
          rintro (hc | hc)
          · exact hlg hc
          · exact hrg hc
        have hcmp := compare_match (groupKeyOf keys lg) (groupKeyOf keys rg)
          (by rw [groupKeyOf_length, groupKeyOf_length])
        have hl2 : ∀ g ∈ lgs, g.headD emptyRow ≠ emptyRow :=
          fun g hg => hl g (List.mem_cons_of_mem _ hg)
        have hr2 : ∀ g ∈ rgs, g.headD emptyRow ≠ emptyRow :=
          fun g hg => hr g (List.mem_cons_of_mem _ hg)
        simp only [List.length_cons] at hlen
        rw [mergeJoin, mergeJoinSpec, if_neg hcond]
        cases hlex : lexOrd (groupKeyOf keys lg) (groupKeyOf keys rg) with
        | eq =>
          rw [hlex] at hcmp
          simp only [hcmp]
          rw [ih lgs rgs (by omega) hl2 hr2]
          simp
        | lt =>
          rw [hlex] at hcmp
          simp only [hcmp]
          norm_num
          rw [ih lgs (rg :: rgs) (by simp only [List.length_cons]; omega) hl2 hr]
        | gt =>
          rw [hlex] at hcmp
          simp only [hcmp]
          norm_num
          rw [ih (lg :: lgs) rgs (by simp only [List.length_cons]; omega) hl hr2]

theorem groupsGo_head_mem (keys : List String) (rs : List Row) :
    ∀ seed acc g, g ∈ groupsGo keys seed acc rs →
      g.headD emptyRow = seed ∨ g.headD emptyRow ∈ rs := by
  induction rs with
  | nil =>
    intro seed acc g hg
    simp only [groupsGo, List.mem_singleton] at hg
    subst hg
    left
    rfl
  | cons r rs ih =>
    intro seed acc g hg
    by_cases h : keyTuple keys r = keyTuple keys seed
    · simp only [groupsGo, h, if_true] at hg
      rcases ih seed (r :: acc) g hg with hh | hh
      · exact Or.inl hh
      · exact Or.inr (List.mem_cons_of_mem _ hh)
    · simp only [groupsGo, h, if_false, List.mem_cons] at hg
      rcases hg with hg | hg
      · subst hg
        left
        rfl
      · rcases ih r [] g hg with hh | hh
        · exact Or.inr (hh ▸ List.mem_cons_self _ _)
        · exact Or.inr (List.mem_cons_of_mem _ hh)

theorem groupsOf_head_mem (keys : List String) (rows : List Row) :
    ∀ g ∈ groupsOf keys rows, g.headD emptyRow ∈ rows := by
  cases rows with
  | nil => intro g hg; cases hg
  | cons r rs =>
    intro g hg
    rcases groupsGo_head_mem keys rs r [] g hg with hh | hh
    · exact hh ▸ List.mem_cons_self _ _
    · exact List.mem_cons_of_mem _ hh

/- ### C3 — the join operator against the spec's state machine -/

/-- C3, counterexample.  The source's main loop tests Python
*truthiness* of the current seed rows, not only their existence: with an
empty key list (both streams trivially sorted) and an empty row heading
the left stream, the main loop is skipped and both sides are drained
against the sentinel, while the spec's state machine sees equal keys and
invokes the joiner on the two groups — the outputs differ. -/
theorem C3_counterexample :
    joinRun [] (outerJoinerF "_1" "_2" []) [[]] [[("x", Value.int 1)]]
      = [[], [("x", Value.int 1)]]
    ∧ mergeJoinSpec [] (outerJoinerF "_1" "_2" [])
        (groupsOf [] [[]]) (groupsOf [] [[("x", Value.int 1)]])
      = [[("x", Value.int 1)]]
    ∧ ([[], [("x", Value.int 1)]] : List Row) ≠ [[("x", Value.int 1)]] := by
  refine ⟨?_, ?_, by decide⟩
  · show mergeJoin [] (outerJoinerF "_1" "_2" [])
      (groupsOf [] [[]]) (groupsOf [] [[("x", Value.int 1)]]) = _
    rw [show groupsOf [] [[]] = [[([] : Row)]] from by decide]
    rw [show groupsOf [] [[("x", Value.int 1)]] = [[[("x", Value.int 1)]]] from by decide]
    rw [mergeJoin]
    rw [if_pos (by left; rfl)]
    decide
  · rw [show groupsOf [] [[]] = [[([] : Row)]] from by decide]
    rw [show groupsOf [] [[("x", Value.int 1)]] = [[[("x", Value.int 1)]]] from by decide]
    rw [mergeJoinSpec]
    rw [show lexOrd (groupKeyOf [] [([] : Row)])
      (groupKeyOf [] [[("x", Value.int 1)]]) = Ordering.eq from by decide]
    rw [show mergeJoinSpec [] (outerJoinerF "_1" "_2" [])
      ([] : List (List Row)) ([] : List (List Row)) = [] from by
        simp [mergeJoinSpec, drainRight]]
    decide

/-- C3, amended.  Provided every row of both streams is non-empty — in
particular whenever the key list is non-empty and the rows carry the
keys, since Python would otherwise raise before comparing — the `Join`
operator computes exactly the spec's merge-join state machine over the
two group sequences, including the drain phases; when a seed row is the
empty row, the source's truthiness test ends the main loop early
instead. -/
theorem C3_amended_state_machine (keys : List String) (J : List Row → List Row → List Row)
    (l r : List Row) (hl : ∀ row ∈ l, row ≠ emptyRow) (hr : ∀ row ∈ r, row ≠ emptyRow) :
    joinRun keys J l r = mergeJoinSpec keys J (groupsOf keys l) (groupsOf keys r) := by
  apply mergeJoin_eq_spec keys J
    ((groupsOf keys l).length + (groupsOf keys r).length) _ _ le_rfl
  · intro g hg
    exact hl _ (groupsOf_head_mem keys l g hg)
  · intro g hg
    exact hr _ (groupsOf_head_mem keys r g hg)

/-- C3, witness: two sorted single-row streams on key `k`. -/
theorem C3_witness :
    joinRun ["k"] (innerJoinerF "_1" "_2" ["k"]) [[("k", Value.int 1)]] [[("k", Value.int 2)]]
      = mergeJoinSpec ["k"] (innerJoinerF "_1" "_2" ["k"])
          (groupsOf ["k"] [[("k", Value.int 1)]]) (groupsOf ["k"] [[("k", Value.int 2)]]) :=
  C3_amended_state_machine ["k"] (innerJoinerF "_1" "_2" ["k"])
    [[("k", Value.int 1)]] [[("k", Value.int 2)]] (by decide) (by decide)

/- ### C9 — join with an empty key list -/

theorem groupsGo_nil_keys (rs : List Row) :
    ∀ seed acc, groupsGo [] seed acc rs = [seed :: acc.reverse ++ rs] := by
  induction rs with
  | nil => intro seed acc; simp [groupsGo]
  | cons r rs ih =>
    intro seed acc
    have h : keyTuple [] r = keyTuple [] seed := rfl
    simp only [groupsGo, h, if_true]
    rw [ih seed (r :: acc)]
    simp

theorem groupsOf_nil_keys (rows : List Row) (h : rows ≠ []) : groupsOf [] rows = [rows] := by
  cases rows with
  | nil => exact absurd rfl h
  | cons r rs =>
    show groupsGo [] r [] rs = _
    rw [groupsGo_nil_keys rs r []]
    simp

/-- C9, counterexample.  Both streams are non-empty, but the left one
starts with the empty row; the source's truthiness test then skips the
main loop entirely and drains both sides separately, emitting two joiner
invocations whose output differs from the single merged Cartesian
product the claim promises. -/
theorem C9_counterexample :
    joinRun [] (outerJoinerF "_1" "_2" []) [[]] [[("y", Value.int 2)]]
      = [[], [("y", Value.int 2)]]
    ∧ cartMerge "_1" "_2" [] [[]] [[("y", Value.int 2)]] = [[("y", Value.int 2)]]
    ∧ ([[], [("y", Value.int 2)]] : List Row) ≠ [[("y", Value.int 2)]] := by
  refine ⟨?_, by decide, by decide⟩
  show mergeJoin [] (outerJoinerF "_1" "_2" [])
    (groupsOf [] [[]]) (groupsOf [] [[("y", Value.int 2)]]) = _
  rw [show groupsOf [] [[]] = [[([] : Row)]] from by decide]
  rw [show groupsOf [] [[("y", Value.int 2)]] = [[[("y", Value.int 2)]]] from by decide]
  rw [mergeJoin]
  rw [if_pos (by left; rfl)]
  decide

/-- C9, amended.  For `Join` with an empty key list and two non-empty
streams *whose first rows are non-empty rows* (otherwise the truthiness
quirk of the main loop triggers, as the counterexample shows), each
whole stream is one group with key tuple `()`, the comparison reports
equality, and the output is a single joiner invocation on the two whole
streams — the merged Cartesian product for the stock joiners. -/
theorem C9_amended_empty_keys (J : List Row → List Row → List Row) (sa sb : String)
    (l r : List Row) (hl : l ≠ []) (hr : r ≠ [])
    (hlh : l.headD emptyRow ≠ emptyRow) (hrh : r.headD emptyRow ≠ emptyRow) :
    groupsOf [] l = [l]
    ∧ groupsOf [] r = [r]
    ∧ compare_key_values [] [] = (1, 1)
    ∧ joinRun [] J l r = J l r
    ∧ joinRun [] (innerJoinerF sa sb []) l r = cartMerge sa sb [] l r := by
  have hgl := groupsOf_nil_keys l hl
  have hgr := groupsOf_nil_keys r hr
  have hjoin : ∀ (J2 : List Row → List Row → List Row), joinRun [] J2 l r = J2 l r := by
    intro J2
    rw [joinRun, hgl, hgr, mergeJoin]
    rw [if_neg (by
      rintro (hc | hc)
      · exact hlh hc
      · exact hrh hc)]
    simp [compare_key_values, mergeJoin, drainRight]
  refine ⟨hgl, hgr, rfl, hjoin J, ?_⟩
  rw [hjoin (innerJoinerF sa sb [])]
  rw [innerJoinerF]
  rw [if_neg (by
    rintro (hc | hc)
    · exact hlh (by rw [hc]; rfl)
    · exact hrh (by rw [hc]; rfl))]

/-- C9, witness: two one-row streams with no shared columns. -/
theorem C9_witness :
    joinRun [] (outerJoinerF "_1" "_2" []) [[("a", Value.int 1)]] [[("b", Value.int 2)]]
      = outerJoinerF "_1" "_2" [] [[("a", Value.int 1)]] [[("b", Value.int 2)]] :=
  (C9_amended_empty_keys (outerJoinerF "_1" "_2" []) "_1" "_2"
    [[("a", Value.int 1)]] [[("b", Value.int 2)]]
    (by decide) (by decide) (by decide) (by decide)).2.2.2.1

/- ### C8 — joins of streams with disjoint key sets -/

theorem rowFind?_append_none (l1 l2 : Row) (k : String) (h : rowFind? l1 k = none) :
    rowFind? (l1 ++ l2) k = rowFind? l2 k := by
  induction l1 with
  | nil => rfl
  | cons kv rest ih =>
    obtain ⟨k1, v1⟩ := kv
    by_cases hk : k1 = k
    · simp [rowFind?, hk] at h
    · simp only [rowFind?, hk, if_false] at h
      simp only [List.cons_append, rowFind?, hk, if_false]
      exact ih h

theorem foldl_insert_disjoint :
    ∀ (rest acc : Row), (rest.map Prod.fst).Nodup →
      (∀ p ∈ rest, rowFind? acc p.1 = none) →
      rest.foldl (fun m kv => rowInsert m kv.1 kv.2) acc = acc ++ rest := by
  intro rest
  induction rest with
  | nil => intro acc _ _; simp
  | cons kv rest ih =>
    intro acc hnd hdisj
    obtain ⟨k, v⟩ := kv
    simp only [List.map_cons, List.nodup_cons] at hnd
    have hkacc : rowFind? acc k = none := hdisj (k, v) (by simp)
    simp only [List.foldl_cons]
    rw [rowInsert_eq_append acc k v hkacc]
    rw [ih (acc ++ [(k, v)]) hnd.2 ?_]
    · simp
    · intro p hp
      rw [rowFind?_append_none acc [(k, v)] p.1 (hdisj p (List.mem_cons_of_mem _ hp))]
      have hpk : ¬ k = p.1 := by
        intro hc
        exact hnd.1 (hc ▸ List.mem_map_of_mem Prod.fst hp)
      simp [rowFind?, hpk]

theorem merge_emptyRow_right (a : Row) (sa sb : String) (keys : List String)
    (hwf : WFRow a) : merge_two_dicts_by_keys a emptyRow sa sb keys = a := by
  by_cases h : a = emptyRow
  · subst h
    rfl
  · have hlen : ¬ a.length = 0 := by
      simp only [List.length_eq_zero]
      exact h
    unfold merge_two_dicts_by_keys
    rw [if_neg hlen]
    have hpass : a.foldl (fun m kv =>
        if rowContains emptyRow kv.1 ∧ kv.1 ∉ keys then
          rowInsert (rowInsert m (kv.1 ++ sa) kv.2) (kv.1 ++ sb)
            ((rowFind? emptyRow kv.1).getD (Value.str ""))
        else rowInsert m kv.1 kv.2) emptyRow
        = a.foldl (fun m kv => rowInsert m kv.1 kv.2) emptyRow := by
      apply List.foldl_ext
      intro m p _
      have : rowContains emptyRow p.1 = false := rfl
      simp [this]
    show a.foldl _ emptyRow = a
    rw [hpass, foldl_insert_disjoint a emptyRow hwf (fun p _ => rfl)]
    rfl

theorem cartMerge_empty_right (sa sb : String) (keys : List String) :
    ∀ (g : List Row), (∀ row ∈ g, WFRow row) →
      cartMerge sa sb keys g [emptyRow] = g := by
  intro g
  induction g with
  | nil => intro _; rfl
  | cons ra rest ih =>
    intro hwf
    simp only [cartMerge, List.flatMap_cons, List.map_cons, List.map_nil] at *
    rw [merge_emptyRow_right ra sa sb keys (hwf ra (by simp))]
    rw [ih (fun row hr => hwf row (List.mem_cons_of_mem _ hr))]
    rfl

theorem leftJoiner_empty_right (sa sb : String) (keys : List String) (g : List Row)
    (hg : ∀ row ∈ g, row ≠ emptyRow ∧ WFRow row) :
    leftJoinerF sa sb keys g [emptyRow] = g := by
  have hne : g ≠ [emptyRow] := by
    intro hc
    exact (hg emptyRow (hc ▸ List.mem_cons_self _ _)).1 rfl
  rw [leftJoinerF, if_neg hne]
  exact cartMerge_empty_right sa sb keys g (fun row hr => (hg row hr).2)

theorem mergeJoin_disjoint (sa sb : String) (keys : List String) :
    ∀ (N : Nat) (lgs rgs : List (List Row)), lgs.length + rgs.length ≤ N →
      (∀ g ∈ lgs, g ≠ [] ∧ ∀ row ∈ g, row ≠ emptyRow ∧ WFRow row) →
      (∀ g ∈ rgs, g ≠ [] ∧ ∀ row ∈ g, row ≠ emptyRow) →
      (∀ lg ∈ lgs, ∀ rg ∈ rgs, groupKeyOf keys lg ≠ groupKeyOf keys rg) →
      mergeJoin keys (innerJoinerF sa sb keys) lgs rgs = []
      ∧ mergeJoin keys (leftJoinerF sa sb keys) lgs rgs = lgs.flatten := by
  intro N
  induction N with
  | zero =>
    intro lgs rgs hlen hl hr _
    cases lgs with
    | nil =>
      cases rgs with
      | nil => exact ⟨by simp [mergeJoin, drainRight], by simp [mergeJoin, drainRight]⟩
      | cons rg rgs => simp at hlen
    | cons lg lgs => simp at hlen
  | succ N ih =>
    intro lgs rgs hlen hl hr hdisj
    cases lgs with
    | nil =>
      constructor
      · simp only [mergeJoin, drainRight]
        have : ∀ g ∈ rgs, innerJoinerF sa sb keys [emptyRow] g = [] := by
          intro g _
          rw [innerJoinerF, if_pos (Or.inl rfl)]
        rw [List.map_congr_left this]
        simp
      · simp only [mergeJoin, drainRight]
        have : ∀ g ∈ rgs, leftJoinerF sa sb keys [emptyRow] g = [] := by
          intro g _
          rw [leftJoinerF, if_pos rfl]
        rw [List.map_congr_left this]
        simp
    | cons lg lgs =>
      cases rgs with
      | nil =>
        constructor
        · simp only [mergeJoin, drainLeft]
          have : ∀ g ∈ lg :: lgs, innerJoinerF sa sb keys g [emptyRow] = [] := by
            intro g _
            rw [innerJoinerF, if_pos (Or.inr rfl)]
          rw [List.map_congr_left this]
          simp
        · simp only [mergeJoin, drainLeft]
          have : ∀ g ∈ lg :: lgs, leftJoinerF sa sb keys g [emptyRow] = g := by
            intro g hg
            exact leftJoiner_empty_right sa sb keys g (hl g hg).2
          rw [List.map_congr_left this]
          simp
      | cons rg rgs =>
        have hlg := hl lg (by simp)
        have hrg := hr rg (by simp)
        have hlh : lg.headD emptyRow ≠ emptyRow := by
          cases lg with
          | nil => exact absurd rfl hlg.1
          | cons x xs => exact (hlg.2 x (by simp)).1
        have hrh : rg.headD emptyRow ≠ emptyRow := by
          cases rg with
          | nil => exact absurd rfl hrg.1
          | cons x xs => exact hrg.2 x (by simp)
        have hcond : ¬ (lg.headD emptyRow = emptyRow ∨ rg.headD emptyRow = emptyRow) := by
          rintro (hc | hc)
          · exact hlh hc
          · exact hrh hc
        have hkne : groupKeyOf keys lg ≠ groupKeyOf keys rg :=
          hdisj lg (by simp) rg (by simp)
        have hcmp := compare_match (groupKeyOf keys lg) (groupKeyOf keys rg)
          (by rw [groupKeyOf_length, groupKeyOf_length])
        have hlexne : lexOrd (groupKeyOf keys lg) (groupKeyOf keys rg) ≠ Ordering.eq := by
          intro hc
          exact hkne (lexOrd_eq_imp _ _ (by rw [groupKeyOf_length, groupKeyOf_length]) hc)
        simp only [List.length_cons] at hlen
        have hl2 : ∀ g ∈ lgs, g ≠ [] ∧ ∀ row ∈ g, row ≠ emptyRow ∧ WFRow row :=
          fun g hg => hl g (List.mem_cons_of_mem _ hg)
        have hr2 : ∀ g ∈ rgs, g ≠ [] ∧ ∀ row ∈ g, row ≠ emptyRow :=
          fun g hg => hr g (List.mem_cons_of_mem _ hg)
        cases hlex : lexOrd (groupKeyOf keys lg) (groupKeyOf keys rg) with
        | eq => exact absurd hlex hlexne
        | lt =>
          rw [hlex] at hcmp
          have hcmp2 : compare_key_values (groupKeyOf keys lg) (groupKeyOf keys rg)
              = ((0 : Nat), (1 : Nat)) := by rw [hcmp]
          have hd1 : ∀ lg2 ∈ lgs, ∀ rg2 ∈ rg :: rgs,
              groupKeyOf keys lg2 ≠ groupKeyOf keys rg2 :=
            fun lg2 hm rg2 hm2 => hdisj lg2 (List.mem_cons_of_mem _ hm) rg2 hm2
          obtain ⟨ihInner, ihLeft⟩ :=
            ih lgs (rg :: rgs) (by simp only [List.length_cons]; omega) hl2 hr hd1
          constructor
          · rw [mergeJoin, if_neg hcond]
            simp only [hcmp2]
            rw [if_neg (by decide), if_neg (by decide)]
            rw [innerJoinerF, if_pos (Or.inr rfl), ihInner]
            rfl
          · rw [mergeJoin, if_neg hcond]
            simp only [hcmp2]
            rw [if_neg (by decide), if_neg (by decide)]
            rw [leftJoiner_empty_right sa sb keys lg hlg.2, ihLeft]
            simp
        | gt =>
          rw [hlex] at hcmp
          have hcmp2 : compare_key_values (groupKeyOf keys lg) (groupKeyOf keys rg)
              = ((1 : Nat), (0 : Nat)) := by rw [hcmp]
          have hd2 : ∀ lg2 ∈ lg :: lgs, ∀ rg2 ∈ rgs,
              groupKeyOf keys lg2 ≠ groupKeyOf keys rg2 :=
            fun lg2 hm rg2 hm2 => hdisj lg2 hm rg2 (List.mem_cons_of_mem _ hm2)
          obtain ⟨ihInner, ihLeft⟩ :=
            ih (lg :: lgs) rgs (by simp only [List.length_cons]; omega) hl hr2 hd2
          constructor
          · rw [mergeJoin, if_neg hcond]
            simp only [hcmp2]
            rw [if_neg (by decide), if_pos (by decide)]
            rw [innerJoinerF, if_pos (Or.inl rfl), ihInner]
            rfl
          · rw [mergeJoin, if_neg hcond]
            simp only [hcmp2]
            rw [if_neg (by decide), if_pos (by decide)]
            rw [leftJoinerF, if_pos rfl, ihLeft]
            simp

/-- C8.  For two key-sorted streams carrying the (non-empty) key columns
in every row, whose key-tuple sets are disjoint, the inner join emits no
row at all and the left join emits exactly the rows of the left input in
order: each left row is merged with the absent-right sentinel and so
comes out unchanged (rows, as Python dicts, have no duplicate
columns). -/
theorem C8_disjoint_joins (sa sb : String) (keys : List String) (l r : List Row)
    (hk : keys ≠ []) (hl : AllKeysPresent keys l) (hr : AllKeysPresent keys r)
    (hwf : ∀ row ∈ l, WFRow row)
    (hdisj : ∀ a ∈ l, ∀ b ∈ r, keyTuple keys a ≠ keyTuple keys b) :
    joinRun keys (innerJoinerF sa sb keys) l r = []
    ∧ joinRun keys (leftJoinerF sa sb keys) l r = l := by
  obtain ⟨k0, keys2, rfl⟩ : ∃ k0 keys2, keys = k0 :: keys2 := by
    cases keys with
    | nil => exact absurd rfl hk
    | cons k0 keys2 => exact ⟨k0, keys2, rfl⟩
  set keys := k0 :: keys2 with hkeys
  have hnonempty : ∀ rows : List Row, AllKeysPresent keys rows →
      ∀ row ∈ rows, row ≠ emptyRow := by
    intro rows hall row hrow hc
    have := hall row hrow k0 (by simp [hkeys])
    rw [hc] at this
    simp [emptyRow, rowFind?] at this
  have hmemL : ∀ g ∈ groupsOf keys l, ∀ row ∈ g, row ∈ l := by
    intro g hg row hrow
    have : row ∈ (groupsOf keys l).flatten := List.mem_flatten.mpr ⟨g, hg, hrow⟩
    rwa [groupsOf_flatten] at this
  have hmemR : ∀ g ∈ groupsOf keys r, ∀ row ∈ g, row ∈ r := by
    intro g hg row hrow
    have : row ∈ (groupsOf keys r).flatten := List.mem_flatten.mpr ⟨g, hg, hrow⟩
    rwa [groupsOf_flatten] at this
  have hLgroups : ∀ g ∈ groupsOf keys l, g ≠ [] ∧ ∀ row ∈ g, row ≠ emptyRow ∧ WFRow row := by
    intro g hg
    refine ⟨?_, ?_⟩
    · cases l with
      | nil => cases hg
      | cons x xs => exact groupsGo_ne_nil keys xs x [] g hg
    · intro row hrow
      exact ⟨hnonempty l hl row (hmemL g hg row hrow), hwf row (hmemL g hg row hrow)⟩
  have hRgroups : ∀ g ∈ groupsOf keys r, g ≠ [] ∧ ∀ row ∈ g, row ≠ emptyRow := by
    intro g hg
    refine ⟨?_, ?_⟩
    · cases r with
      | nil => cases hg
      | cons x xs => exact groupsGo_ne_nil keys xs x [] g hg
    · intro row hrow
      exact hnonempty r hr row (hmemR g hg row hrow)
  have hgdisj : ∀ lg ∈ groupsOf keys l, ∀ rg ∈ groupsOf keys r,
      groupKeyOf keys lg ≠ groupKeyOf keys rg := by
    intro lg hlg rg hrg
    have hheadL : lg.headD emptyRow ∈ l := groupsOf_head_mem keys l lg hlg
    have hheadR : rg.headD emptyRow ∈ r := groupsOf_head_mem keys r rg hrg
    exact hdisj _ hheadL _ hheadR
  obtain ⟨h1, h2⟩ := mergeJoin_disjoint sa sb keys
    ((groupsOf keys l).length + (groupsOf keys r).length)
    (groupsOf keys l) (groupsOf keys r) le_rfl hLgroups hRgroups hgdisj
  exact ⟨h1, by rw [joinRun, h2, groupsOf_flatten]⟩

/-- C8, witness: one-row streams with keys 1 and 2. -/
theorem C8_witness :
    joinRun ["k"] (innerJoinerF "_1" "_2" ["k"])
      [[("k", Value.int 1), ("u", Value.int 5)]] [[("k", Value.int 2)]] = [] :=
  (C8_disjoint_joins "_1" "_2" ["k"]
    [[("k", Value.int 1), ("u", Value.int 5)]] [[("k", Value.int 2)]]
    (by decide) (by unfold AllKeysPresent; decide) (by unfold AllKeysPresent; decide)
    (by unfold WFRow; decide) (by decide)).1

end CompGraph
